import Mathlib

/-!
# Verification of `anki-summarize-notes`

Shallow embedding of `src/anki_summarize_notes/__init__.py` and proofs about
its orchestration behaviour.  Pure helpers (`batched`,
`markdown_llm_summarize`'s control flow, `AnkiConnectRequest.request`) are
translated directly; the effectful `_main` orchestrator is embedded as a
function from its command-line arguments and an oracle describing the external
world (AnkiConnect search/detail results, the Jina extraction service, the
summarizer subprocess, the markdown converter) to the ordered trace of
externally visible events it produces, together with its return value and
final `processed_count`.
-/

namespace AnkiSummarizeNotes

/-! ## `batched` (source lines 61-68)

```python
def batched(iterable, n):
    "Batch data into tuples of length n. The last batch may be shorter."
    if n < 1:
        raise ValueError("n must be at least one")
    it = iter(iterable)
    while batch := tuple(islice(it, n)):
        yield batch
```

`batchedGo` is the generator loop for a batch size `n ≥ 1`: each `islice`
pull takes the next `n` elements (on a non-empty remainder it takes the head
plus `n - 1` further elements).  The structural formulation below agrees with
`take n` / `drop n` whenever `n ≥ 1`, which is the only way the loop is
reached.  `batched` adds the `n < 1 → ValueError` guard; the Python `n` is an
arbitrary int, so it is modelled as `Int`.
-/

def batchedGoFuel (n : Nat) : Nat → List α → List (List α)
  | _, [] => []
  | 0, _ :: _ => []
  | fuel + 1, x :: xs =>
      (x :: List.take (n - 1) xs) ::
        batchedGoFuel n fuel (List.drop (n - 1) xs)

/-- The generator loop for batch size `n ≥ 1`: repeatedly emit the next `n`
elements (the head plus `n - 1` more) until the remainder is empty.
`batchedGoFuel` runs it structurally on a fuel counter; `l.length` fuel
always suffices because each step drops at least one element. -/
def batchedGo (n : Nat) (l : List α) : List (List α) :=
  batchedGoFuel n l.length l

def batched (l : List α) (n : Int) : Except String (List (List α)) :=
  if n < 1 then .error "n must be at least one"
  else .ok (batchedGo n.toNat l)

theorem batchedGoFuel_nil (n fuel : Nat) :
    batchedGoFuel n fuel ([] : List α) = [] := by
  cases fuel <;> rfl

theorem batchedGoFuel_irrel (n : Nat) :
    ∀ (fuel1 fuel2 : Nat) (l : List α), l.length ≤ fuel1 →
      l.length ≤ fuel2 → batchedGoFuel n fuel1 l = batchedGoFuel n fuel2 l := by
  intro fuel1
  induction fuel1 with
  | zero =>
      intro fuel2 l h1 _h2
      have hl : l = [] := List.eq_nil_of_length_eq_zero (by omega)
      rw [hl, batchedGoFuel_nil, batchedGoFuel_nil]
  | succ f1 ih =>
      intro fuel2 l h1 h2
      cases l with
      | nil => rw [batchedGoFuel_nil, batchedGoFuel_nil]
      | cons x xs =>
          cases fuel2 with
          | zero => simp at h2
          | succ f2 =>
              show ((x :: List.take (n - 1) xs) ::
                  batchedGoFuel n f1 (List.drop (n - 1) xs)) =
                ((x :: List.take (n - 1) xs) ::
                  batchedGoFuel n f2 (List.drop (n - 1) xs))
              congr 1
              apply ih
              · simp only [List.length_drop]
                simp only [List.length_cons] at h1
                omega
              · simp only [List.length_drop]
                simp only [List.length_cons] at h2
                omega

theorem batchedGo_nil (n : Nat) : batchedGo n ([] : List α) = [] := rfl

theorem batchedGo_cons (n : Nat) (x : α) (xs : List α) :
    batchedGo n (x :: xs) =
      (x :: List.take (n - 1) xs) :: batchedGo n (List.drop (n - 1) xs) := by
  show batchedGoFuel n (x :: xs).length (x :: xs) = _
  rw [List.length_cons]
  show ((x :: List.take (n - 1) xs) ::
      batchedGoFuel n xs.length (List.drop (n - 1) xs)) = _
  unfold batchedGo
  congr 1
  apply batchedGoFuel_irrel
  · simp only [List.length_drop]
    omega
  · exact le_rfl

/-- Induction along the recursion structure of the generator loop. -/
theorem batchedGo_ind {α : Type _} (n : Nat) {motive : List α → Prop}
    (h0 : motive ([] : List α))
    (h1 : ∀ (x : α) (xs : List α), motive (List.drop (n - 1) xs) →
      motive (x :: xs)) :
    ∀ l : List α, motive l := by
  have key : ∀ (k : Nat) (l : List α), l.length ≤ k → motive l := by
    intro k
    induction k with
    | zero =>
        intro l hl
        have h : l = [] := List.eq_nil_of_length_eq_zero (by omega)
        rw [h]
        exact h0
    | succ k ih =>
        intro l hl
        cases l with
        | nil => exact h0
        | cons x xs =>
            apply h1
            apply ih
            simp only [List.length_drop]
            simp only [List.length_cons] at hl
            omega
  exact fun l => key l.length l le_rfl

theorem batchedGo_take_drop (n : Nat) (hn : 1 ≤ n) (x : α) (xs : List α) :
    batchedGo n (x :: xs) =
      List.take n (x :: xs) :: batchedGo n (List.drop n (x :: xs)) := by
  rw [batchedGo_cons]
  obtain ⟨m, rfl⟩ : ∃ m, n = m + 1 := ⟨n - 1, by omega⟩
  simp

theorem batchedGo_eq_nil_iff (n : Nat) (l : List α) :
    batchedGo n l = [] ↔ l = [] := by
  cases l with
  | nil => simp [batchedGo_nil]
  | cons x xs => simp [batchedGo_cons]

/-- Concatenating the batches gives back the original list. -/
theorem batchedGo_join (n : Nat) (l : List α) :
    (batchedGo n l).flatten = l := by
  induction l using batchedGo_ind n with
  | h0 => simp [batchedGo_nil]
  | h1 x xs ih =>
      rw [batchedGo_cons]
      simp only [List.flatten_cons, ih]
      simp [List.cons_append, List.take_append_drop]

/-- Every batch is non-empty and no longer than `n` (for `n ≥ 1`). -/
theorem batchedGo_mem_length (n : Nat) (hn : 1 ≤ n) (l : List α)
    (b : List α) (hb : b ∈ batchedGo n l) :
    1 ≤ b.length ∧ b.length ≤ n := by
  induction l using batchedGo_ind n generalizing b with
  | h0 => simp [batchedGo_nil] at hb
  | h1 x xs ih =>
      rw [batchedGo_cons] at hb
      rcases List.mem_cons.mp hb with h | h
      · subst h
        constructor
        · simp
        · have := List.length_take_le (n - 1) xs
          simp only [List.length_cons]
          omega
      · exact ih b h

/-- Every batch except the last has length exactly `n` (for `n ≥ 1`). -/
theorem batchedGo_init_length (n : Nat) (hn : 1 ≤ n) (l : List α)
    (i : Nat) (hi : i + 1 < (batchedGo n l).length)
    (b : List α) (hb : (batchedGo n l)[i]? = some b) :
    b.length = n := by
  induction l using batchedGo_ind n generalizing i b with
  | h0 => rw [batchedGo_nil] at hi; simp at hi
  | h1 x xs ih =>
      rw [batchedGo_cons] at hi hb
      match i with
      | 0 =>
          simp only [List.getElem?_cons_zero, Option.some.injEq] at hb
          simp only [List.length_cons] at hi
          have hne : batchedGo n (List.drop (n - 1) xs) ≠ [] := by
            intro h
            rw [h] at hi
            simp at hi
          have hdrop : List.drop (n - 1) xs ≠ [] := by
            intro h
            rw [h, batchedGo_nil] at hne
            exact hne rfl
          have hlen : n - 1 < xs.length := by
            by_contra h
            exact hdrop (List.drop_eq_nil_of_le (by omega))
          rw [← hb]
          simp only [List.length_cons, List.length_take]
          omega
      | i + 1 =>
          simp only [List.getElem?_cons_succ] at hb
          simp only [List.length_cons] at hi
          exact ih i (by omega) b hb

/-- The number of batches is `⌈len / n⌉` (for `n ≥ 1`). -/
theorem batchedGo_length (n : Nat) (hn : 1 ≤ n) (l : List α) :
    (batchedGo n l).length = (l.length + n - 1) / n := by
  induction l using batchedGo_ind n with
  | h0 =>
      rw [batchedGo_nil]
      simp only [List.length_nil]
      rw [Nat.div_eq_of_lt (show 0 + n - 1 < n by omega)]
  | h1 x xs ih =>
      rw [batchedGo_cons]
      simp only [List.length_cons, ih, List.length_drop]
      rcases Nat.lt_or_ge xs.length n with h | h
      · have e1 : xs.length - (n - 1) + n - 1 = n - 1 := by omega
        have e2 : xs.length + 1 + n - 1 = xs.length + n := by omega
        rw [e1, e2, Nat.div_eq_of_lt (show n - 1 < n by omega),
          Nat.add_div_right _ (show 0 < n by omega), Nat.div_eq_of_lt h]
      · have e1 : xs.length - (n - 1) + n - 1 = xs.length - n + n := by omega
        have e2 : xs.length + 1 + n - 1 = xs.length - n + n + n := by omega
        rw [e1, e2]
        conv_rhs => rw [Nat.add_div_right _ (show 0 < n by omega)]

/-! ## `AnkiConnectRequest.request` (source lines 79-89)

```python
class AnkiConnectRequest(SessionRequest):
    def request(self, payload):
        payload["version"] = ANKICONNECT_VERSION
        logger.debug("payload = %s", payload)
        response = json.loads(
            self.session.post(ankiconnect_url, json=payload, timeout=3).text
        )
        logger.debug("response = %s", response)
        if response["error"] is not None:
            logger.warning("payload %s had response error: %s", payload, response)
        return response
```

The payload is modelled as its action name, an opaque rendering of its
params, and the `version` tag the method stamps on it.  The HTTP round trip
is an oracle `respond` mapping the (version-tagged) payload to the decoded
`{result, error}` response: the claim under scrutiny is about what the method
does *after* a response with a non-null `error` has been decoded, so the
transport level (which can raise and is not in this code path) sits outside
this definition.  The method's observable effects are recorded as a list of
`ReqEffect`s in order: one `post` per HTTP request sent, one `warnLog` per
warning logged.
-/

def ANKICONNECT_VERSION : Int := 6

structure AnkiPayload where
  action : String
  params : String
  version : Option Int := none
deriving Repr, DecidableEq

structure AnkiResponse (α : Type) where
  result : α
  error : Option String
deriving Repr, DecidableEq

inductive ReqEffect where
  | post (payload : AnkiPayload)
  | warnLog (payload : AnkiPayload) (error : Option String)
deriving Repr, DecidableEq

def AnkiConnectRequest.request {α : Type}
    (respond : AnkiPayload → AnkiResponse α) (payload : AnkiPayload) :
    List ReqEffect × AnkiResponse α :=
  let payload := { payload with version := some ANKICONNECT_VERSION }
  let response := respond payload
  if response.error.isSome then
    ([.post payload, .warnLog payload response.error], response)
  else
    ([.post payload], response)

/-! ## `markdown_llm_summarize` (source lines 122-131)

```python
def markdown_llm_summarize(content):
    proc = subprocess.Popen(
        [shutil.which("summarize"), "-p", MODEL_NAME],
        stdin=subprocess.PIPE,
        stdout=subprocess.PIPE,
    )
    (summary, _) = proc.communicate(input=content.encode("utf-8"), timeout=60)
    if proc.returncode != 0:
        raise Exception(f"summarize failed - returncode = {proc.returncode}")
    return summary.decode(encoding="utf-8", errors="strict")
```

The subprocess round trip is an oracle: either `communicate` raises
`subprocess.TimeoutExpired` after the 60-second timeout, or the process
terminates with a return code and a byte string on stdout.  `bytes.decode`
with `errors="strict"` is Python's strict UTF-8 decoder, modelled byte-for-
byte below (rejecting stray continuation bytes, overlong encodings, lone
surrogates, and code points above U+10FFFF); it raises `UnicodeDecodeError`
on invalid input.  The function's result is one of four outcomes, of which
only `.ok` is a normal return — the other three are raised exceptions.
-/

def MODEL_NAME : String := "gpt-4o"

/-- Outcome of `proc.communicate(..., timeout=60)`: either the timeout ran
out (raising `TimeoutExpired`), or the process finished with this return
code and stdout contents (a byte string). -/
inductive SubprocResult where
  | timeout
  | completed (returncode : Int) (stdout : List Nat)
deriving Repr, DecidableEq

inductive SummarizeOutcome where
  /-- `subprocess.TimeoutExpired` propagates out of `communicate`. -/
  | timeoutExpired
  /-- `raise Exception(f"summarize failed - returncode = ...")`. -/
  | summarizeFailed (returncode : Int)
  /-- `UnicodeDecodeError` propagates out of `summary.decode`. -/
  | unicodeDecodeError
  /-- Normal return of the decoded stdout. -/
  | ok (summary : String)
deriving Repr, DecidableEq

def isUtf8Cont (b : Nat) : Bool := 128 ≤ b && b < 192

/-- Strict UTF-8 decoding of a byte list into code points, following
Python's `codecs` strict handler: `none` means `UnicodeDecodeError`. -/
def utf8DecodeCodepoints : List Nat → Option (List Nat)
  | [] => some []
  | b :: rest =>
    if b < 128 then
      (utf8DecodeCodepoints rest).map (b :: ·)
    else if b < 194 then
      none
    else if b < 224 then
      match rest with
      | b1 :: rest1 =>
        if isUtf8Cont b1 then
          (utf8DecodeCodepoints rest1).map (((b - 192) * 64 + (b1 - 128)) :: ·)
        else none
      | [] => none
    else if b < 240 then
      match rest with
      | b1 :: b2 :: rest2 =>
        let cp := (b - 224) * 4096 + (b1 - 128) * 64 + (b2 - 128)
        if isUtf8Cont b1 && isUtf8Cont b2 && decide (2048 ≤ cp) &&
            !(decide (55296 ≤ cp) && decide (cp < 57344)) then
          (utf8DecodeCodepoints rest2).map (cp :: ·)
        else none
      | _ => none
    else if b < 245 then
      match rest with
      | b1 :: b2 :: b3 :: rest3 =>
        let cp := (b - 240) * 262144 + (b1 - 128) * 4096 + (b2 - 128) * 64 +
          (b3 - 128)
        if isUtf8Cont b1 && isUtf8Cont b2 && isUtf8Cont b3 &&
            decide (65536 ≤ cp) && decide (cp ≤ 1114111) then
          (utf8DecodeCodepoints rest3).map (cp :: ·)
        else none
      | _ => none
    else none

def utf8Decode (bytes : List Nat) : Option String :=
  (utf8DecodeCodepoints bytes).map (fun cps => ⟨cps.map Char.ofNat⟩)

def markdown_llm_summarize (communicate : SubprocResult) : SummarizeOutcome :=
  match communicate with
  | .timeout => .timeoutExpired
  | .completed returncode stdout =>
    if returncode ≠ 0 then .summarizeFailed returncode
    else
      match utf8Decode stdout with
      | none => .unicodeDecodeError
      | some summary => .ok summary

/-- The subprocess "succeeded": it neither timed out nor exited non-zero. -/
def SubprocResult.succeeded : SubprocResult → Bool
  | .timeout => false
  | .completed returncode _ => returncode == 0

/-- The stdout bytes `communicate` handed back (empty if it timed out). -/
def SubprocResult.stdoutBytes : SubprocResult → List Nat
  | .timeout => []
  | .completed _ stdout => stdout

/-- The outcome is a raised exception rather than a normal return. -/
def SummarizeOutcome.raises : SummarizeOutcome → Bool
  | .ok _ => false
  | _ => true

/-! ## The `_main` orchestrator (source lines 149-273)

`_main` is embedded as a function from the parsed command-line arguments and
an oracle for the external world to the ordered trace of externally visible
events, the value `_main` returns (or the exception it lets propagate), and
the final value of `processed_count`.

The world oracle fixes, for one run: the `result` of the `findNotes` call,
the `result` of the `notesInfo` call, the behaviour of
`jina_ai_content_request.request` (which either returns the page text or
raises a transport exception), the behaviour of `markdown_llm_summarize`
(either a summary or a raised exception, cf. `SummarizeOutcome`), the pure
`markdown.markdown` conversion, and the behaviour of each `multi` bulk
update call (which can raise a transport exception).  `Except.error`
represents a raised Python exception throughout.

The trace records every AnkiConnect action issued (`sync`, `findNotes`,
`notesInfo`, `multi`), every extraction request, every summarizer
invocation, and every info-level log line (debug-level logging is omitted).
`LogMsg` keeps a log line's identity and arguments; `LogMsg.text` renders
the formatted message where a claim quotes its wording.
-/

structure NoteInfo where
  /-- `note_info["noteId"]`. -/
  noteId : Int
  /-- `note_info["fields"]["summary"]["value"]`. -/
  summary : String
  /-- `note_info["fields"]["resolved_url"]["value"]`. -/
  resolved_url : String
deriving Repr, DecidableEq

/-- The `updateNoteFields` action staged for the bulk `multi` call:
`{"action": "updateNoteFields", "params": {"note": {"id": ..., "fields": ...}}}`. -/
structure UpdateAction where
  id : Int
  fields : List (String × String)
deriving Repr, DecidableEq

structure Args where
  dry_run : Bool
  query : String
  limit_count : Option Int
  edited : Option Int
deriving Repr, DecidableEq

/-- Default of the `--query` flag:
`'("note:Pocket Article" "deck:Articles" summary:)'`. -/
def defaultQuery : String := "(\"note:Pocket Article\" \"deck:Articles\" summary:)"

inductive LogMsg where
  /-- `logger.info("Syncing Anki")` inside `anki_sync`. -/
  | syncingAnki
  /-- The (non-f-string) literal logged on an empty search result. -/
  | noMatchingNotes
  /-- `logger.info(f"Only keeping the first {args.limit_count} notes ...")`. -/
  | onlyKeepingFirst (n : Int)
  /-- `logger.info(f"note_ids: {note_ids}")`. -/
  | noteIds (ids : List Int)
  /-- `logger.info("Skipping note ID %d because summary already present", ...)`. -/
  | skippingNote (noteId : Int)
  /-- `logger.info("Would update note %s with fields %s", ...)` (dry run). -/
  | wouldUpdate (noteId : Int) (fields : List (String × String))
deriving Repr, DecidableEq

inductive Event where
  | log (msg : LogMsg)
  | sync
  | findNotes (query : String)
  | notesInfo (ids : List Int)
  | extract (url : String)
  | summarize (content : String)
  | multi (actions : List UpdateAction)
deriving Repr, DecidableEq

/-- The literal logged at source lines 199-201.  The string in the source is
quoted with `'...'` but carries no `f` prefix, so the braces and the embedded
expression are logged verbatim (`\x7b`/`\x7d` below are `{`/`}`). -/
def noMatchingNotesText : String :=
  "No matching notes found\x7bf\x22 and got error \x7bresponse[\x22error\x22]\x7d\x22 if response[\x22error\x22] else \x22\x22\x7d - check values of flags passed to this program"

def pyIntListRepr (ids : List Int) : String :=
  "[" ++ String.intercalate ", " (ids.map toString) ++ "]"

def pyStrFieldsRepr (fields : List (String × String)) : String :=
  "\x7b" ++
    String.intercalate ", "
      (fields.map fun kv => "\x27" ++ kv.1 ++ "\x27: \x27" ++ kv.2 ++ "\x27") ++
  "\x7d"

/-- The formatted text of each modelled log line (value reprs assume strings
without characters that Python's `repr` would escape). -/
def LogMsg.text : LogMsg → String
  | .syncingAnki => "Syncing Anki"
  | .noMatchingNotes => noMatchingNotesText
  | .onlyKeepingFirst n =>
      "Only keeping the first " ++ toString n ++
        " notes without an existing summary."
  | .noteIds ids => "note_ids: " ++ pyIntListRepr ids
  | .skippingNote noteId =>
      "Skipping note ID " ++ toString noteId ++
        " because summary already present"
  | .wouldUpdate noteId fields =>
      "Would update note " ++ toString noteId ++ " with fields " ++
        pyStrFieldsRepr fields

structure World where
  /-- `result` of the `findNotes` request (`note_ids`). -/
  findNotesResult : List Int
  /-- `result` of the `notesInfo` request (`note_infos`). -/
  notesInfoResult : List NoteInfo
  /-- `jina_ai_content_request.request url`: page text, or a raised transport
  exception. -/
  extract : String → Except String String
  /-- `markdown_llm_summarize url_content`: summary, or a raised exception. -/
  summarize : String → Except String String
  /-- `markdown.markdown summary` (pure). -/
  markdown : String → String
  /-- The `multi` bulk update request: ok, or a raised transport exception. -/
  multiResult : List UpdateAction → Except String Unit

/-- Python truthiness of `args.limit_count` / `args.edited` (an optional
int): `None` and `0` are falsy. -/
def intTruthy : Option Int → Bool
  | none => false
  | some n => n != 0

/-- `f'{args.query}{f" edited:{args.edited}" if args.edited else ""}'`. -/
def builtQuery (a : Args) : String :=
  match a.edited with
  | none => a.query
  | some d => if d != 0 then a.query ++ " edited:" ++ toString d else a.query

/-- `args.limit_count and processed_count >= args.limit_count`. -/
def limitReached (limit_count : Option Int) (processed_count : Nat) : Bool :=
  match limit_count with
  | none => false
  | some l => l != 0 && decide ((processed_count : Int) ≥ l)

/-- `anki_sync()` logs `"Syncing Anki"` and issues the `sync` action. -/
def ankiSyncEvents : List Event := [.log .syncingAnki, .sync]

structure InnerState where
  processed_count : Nat
  actions : List UpdateAction
  trace : List Event
deriving Repr

inductive InnerResult where
  /-- The `for note_info in batch` loop ended (exhausted or `break`). -/
  | done (st : InnerState)
  /-- An exception escaped the loop body (`actions` dies with the scope). -/
  | raised (processed_count : Nat) (trace : List Event) (exc : String)
deriving Repr

def InnerResult.traceOf : InnerResult → List Event
  | .done st => st.trace
  | .raised _ tr _ => tr

def InnerResult.processedOf : InnerResult → Nat
  | .done st => st.processed_count
  | .raised p _ _ => p

/-- The `for note_info in batch:` loop, source lines 225-264. -/
def runNotes (w : World) (a : Args) : List NoteInfo → InnerState → InnerResult
  | [], st => .done st
  | note_info :: rest, st =>
    if limitReached a.limit_count st.processed_count then
      .done st
    else if note_info.summary ≠ "" then
      runNotes w a rest
        { st with trace := st.trace ++ [.log (.skippingNote note_info.noteId)] }
    else
      let processed := st.processed_count + 1
      let url := note_info.resolved_url
      let tr1 := st.trace ++ [.extract url]
      match w.extract url with
      | .error e => .raised processed tr1 e
      | .ok url_content =>
        let tr2 := tr1 ++ [.summarize url_content]
        match w.summarize url_content with
        | .error e => .raised processed tr2 e
        | .ok summary =>
          let summary_html := w.markdown summary
          let new_fields : List (String × String) := [("summary", summary_html)]
          let update_action : UpdateAction := ⟨note_info.noteId, new_fields⟩
          if a.dry_run then
            runNotes w a rest
              ⟨processed, st.actions,
                tr2 ++ [.log (.wouldUpdate note_info.noteId new_fields)]⟩
          else
            runNotes w a rest ⟨processed, st.actions ++ [update_action], tr2⟩

inductive OuterResult where
  | done (processed_count : Nat) (trace : List Event)
  | raised (processed_count : Nat) (trace : List Event) (exc : String)
deriving Repr

def OuterResult.traceOf : OuterResult → List Event
  | .done _ tr => tr
  | .raised _ tr _ => tr

def OuterResult.processedOf : OuterResult → Nat
  | .done p _ => p
  | .raised p _ _ => p

/-- The `for batch in batched(note_infos, BATCH_SIZE):` loop, source lines
221-271.  Each iteration starts a fresh `actions = []`, runs the inner note
loop, then issues the `multi` bulk call — also after an inner `break`, and
also when `actions` is empty. -/
def runBatches (w : World) (a : Args) :
    List (List NoteInfo) → Nat → List Event → OuterResult
  | [], processed_count, trace => .done processed_count trace
  | batch :: rest, processed_count, trace =>
    if limitReached a.limit_count processed_count then
      .done processed_count trace
    else
      match runNotes w a batch ⟨processed_count, [], trace⟩ with
      | .raised p tr e => .raised p tr e
      | .done st =>
        let tr2 := st.trace ++ [.multi st.actions]
        match w.multiResult st.actions with
        | .error e => .raised st.processed_count tr2 e
        | .ok _ => runBatches w a rest st.processed_count tr2

structure MainResult where
  /-- `.ok r` = `_main` returned `r`; `.error e` = an exception propagated. -/
  ret : Except String (Option Int)
  trace : List Event
  processed_count : Nat
deriving Repr

def BATCH_SIZE : Nat := 25

/-- `if args.limit_count: logger.info(f"Only keeping the first ...")`
(source lines 203-206). -/
def limitLogEvents (a : Args) : List Event :=
  match a.limit_count with
  | none => []
  | some l => if l != 0 then [.log (.onlyKeepingFirst l)] else []

/-- The trace emitted before the batch loop on the non-empty-search path:
sync-before, `findNotes`, the optional limit log, the `note_ids` log, and
the `notesInfo` detail fetch (source lines 187-216). -/
def preBatchTrace (w : World) (a : Args) : List Event :=
  ankiSyncEvents ++ [.findNotes (builtQuery a)] ++ limitLogEvents a ++
    [.log (.noteIds w.findNotesResult), .notesInfo w.findNotesResult]

/-- `_main`, source lines 149-273, from the first `anki_sync()` on (flag
parsing is outside the model; `args` arrives as `Args`).  `batched` is
called with `BATCH_SIZE = 25 ≥ 1`, so it never raises here and equals
`batchedGo BATCH_SIZE` (see `batched_BATCH_SIZE`).  The `try`/`finally`
around the batch loop appends the second `anki_sync()` both on normal
completion and when the loop raised, before the exception propagates. -/
def _main (w : World) (a : Args) : MainResult :=
  if w.findNotesResult.isEmpty then
    { ret := .ok (some 0),
      trace := ankiSyncEvents ++
        [.findNotes (builtQuery a), .log .noMatchingNotes],
      processed_count := 0 }
  else if w.notesInfoResult.isEmpty then
    { ret := .ok none, trace := preBatchTrace w a, processed_count := 0 }
  else
    match runBatches w a (batchedGo BATCH_SIZE w.notesInfoResult) 0
        (preBatchTrace w a) with
    | .done p tr =>
        { ret := .ok none, trace := tr ++ ankiSyncEvents,
          processed_count := p }
    | .raised p tr e =>
        { ret := .error e, trace := tr ++ ankiSyncEvents,
          processed_count := p }

theorem batched_BATCH_SIZE (l : List NoteInfo) :
    batched l (25 : Int) = .ok (batchedGo BATCH_SIZE l) := by
  simp [batched, BATCH_SIZE]

/-! Event discriminators and trace summaries used by the theorems. -/

def Event.isSync : Event → Bool
  | .sync => true
  | _ => false

def Event.isFindNotes : Event → Bool
  | .findNotes _ => true
  | _ => false

def Event.isNotesInfo : Event → Bool
  | .notesInfo _ => true
  | _ => false

def Event.isMulti : Event → Bool
  | .multi _ => true
  | _ => false

def Event.isExtract : Event → Bool
  | .extract _ => true
  | _ => false

def Event.isSummarize : Event → Bool
  | .summarize _ => true
  | _ => false

def syncCount (tr : List Event) : Nat := tr.countP Event.isSync

def multiCount (tr : List Event) : Nat := tr.countP Event.isMulti

def extractCount (tr : List Event) : Nat := tr.countP Event.isExtract

def summarizeCount (tr : List Event) : Nat := tr.countP Event.isSummarize

/-- All `UpdateAction`s submitted by `multi` bulk calls in a trace. -/
def stagedActions (tr : List Event) : List UpdateAction :=
  tr.flatMap fun e =>
    match e with
    | .multi actions => actions
    | _ => []

/-! ## Provenance invariants of the batch loop -/

/-- `act` is an update the loop body can stage from one of `notes`: it
belongs to a note whose summary field was empty, and its `fields` dict is
exactly `{"summary": markdown.markdown(summary)}`. -/
def noteStagesAct (w : World) (notes : List NoteInfo) (act : UpdateAction) :
    Prop :=
  ∃ note ∈ notes, note.summary = "" ∧ act.id = note.noteId ∧
    ∃ s, act.fields = [("summary", w.markdown s)]

/-- Events the inner note loop can emit while scanning `notes`: log lines,
and extraction/summarization only on behalf of a note with an empty summary
field. -/
def noteEmits (_w : World) (notes : List NoteInfo) : Event → Prop
  | .log _ => True
  | .extract url => ∃ note ∈ notes, note.summary = "" ∧ url = note.resolved_url
  | .summarize _ => ∃ note ∈ notes, note.summary = ""
  | _ => False

/-- Events the batch loop can emit: what the inner loop emits, plus one
`multi` call per batch whose actions all come from empty-summary notes (and
are absent entirely in dry-run mode). -/
def batchEmits (w : World) (a : Args) (bs : List (List NoteInfo)) :
    Event → Prop
  | .log _ => True
  | .extract url =>
      ∃ note ∈ bs.flatten, note.summary = "" ∧ url = note.resolved_url
  | .summarize _ => ∃ note ∈ bs.flatten, note.summary = ""
  | .multi actions =>
      (∀ act ∈ actions, noteStagesAct w bs.flatten act) ∧
        (a.dry_run = true → actions = [])
  | _ => False

theorem noteStagesAct_mono {w : World} {notes notes' : List NoteInfo}
    (hsub : notes ⊆ notes') {act : UpdateAction}
    (h : noteStagesAct w notes act) : noteStagesAct w notes' act := by
  obtain ⟨note, hmem, hrest⟩ := h
  exact ⟨note, hsub hmem, hrest⟩

theorem noteEmits_mono {w : World} {notes notes' : List NoteInfo}
    (hsub : notes ⊆ notes') {e : Event}
    (h : noteEmits w notes e) : noteEmits w notes' e := by
  cases e with
  | log _ => trivial
  | extract url =>
      obtain ⟨note, hmem, hrest⟩ := h
      exact ⟨note, hsub hmem, hrest⟩
  | summarize _ =>
      obtain ⟨note, hmem, hrest⟩ := h
      exact ⟨note, hsub hmem, hrest⟩
  | sync => exact h.elim
  | findNotes _ => exact h.elim
  | notesInfo _ => exact h.elim
  | multi _ => exact h.elim

theorem noteEmits_to_batchEmits {w : World} {a : Args}
    {notes : List NoteInfo} {bs : List (List NoteInfo)}
    (hsub : notes ⊆ bs.flatten) {e : Event}
    (h : noteEmits w notes e) : batchEmits w a bs e := by
  cases e with
  | log _ => trivial
  | extract url =>
      obtain ⟨note, hmem, hrest⟩ := h
      exact ⟨note, hsub hmem, hrest⟩
  | summarize _ =>
      obtain ⟨note, hmem, hrest⟩ := h
      exact ⟨note, hsub hmem, hrest⟩
  | sync => exact h.elim
  | findNotes _ => exact h.elim
  | notesInfo _ => exact h.elim
  | multi _ => exact h.elim

theorem batchEmits_mono_tail {w : World} {a : Args}
    {batch : List NoteInfo} {rest : List (List NoteInfo)} {e : Event}
    (h : batchEmits w a rest e) : batchEmits w a (batch :: rest) e := by
  have hsub : rest.flatten ⊆ (batch :: rest).flatten := by
    rw [List.flatten_cons]
    exact List.subset_append_right _ _
  cases e with
  | log _ => trivial
  | extract url =>
      obtain ⟨note, hmem, hrest⟩ := h
      exact ⟨note, hsub hmem, hrest⟩
  | summarize _ =>
      obtain ⟨note, hmem, hrest⟩ := h
      exact ⟨note, hsub hmem, hrest⟩
  | multi actions =>
      exact ⟨fun act hact => noteStagesAct_mono hsub (h.1 act hact), h.2⟩
  | sync => exact h.elim
  | findNotes _ => exact h.elim
  | notesInfo _ => exact h.elim

theorem noteEmits_not_special {w : World} {notes : List NoteInfo} {e : Event}
    (h : noteEmits w notes e) :
    e.isMulti = false ∧ e.isSync = false ∧ e.isFindNotes = false ∧
      e.isNotesInfo = false := by
  cases e <;> simp [Event.isMulti, Event.isSync, Event.isFindNotes,
    Event.isNotesInfo] <;> exact h.elim

theorem batchEmits_not_special {w : World} {a : Args}
    {bs : List (List NoteInfo)} {e : Event} (h : batchEmits w a bs e) :
    e.isSync = false ∧ e.isFindNotes = false ∧ e.isNotesInfo = false := by
  cases e <;> simp [Event.isSync, Event.isFindNotes, Event.isNotesInfo] <;>
    exact h.elim

/-- The inner note loop only appends events, all of `noteEmits` shape, and
never decreases `processed_count`. -/
theorem runNotes_trace (w : World) (a : Args) :
    ∀ (notes : List NoteInfo) (st : InnerState),
      ∃ tl, (runNotes w a notes st).traceOf = st.trace ++ tl ∧
        (∀ e ∈ tl, noteEmits w notes e) ∧
        st.processed_count ≤ (runNotes w a notes st).processedOf := by
  intro notes
  induction notes with
  | nil =>
      intro st
      exact ⟨[], by simp [runNotes, InnerResult.traceOf],
        by simp, by simp [runNotes, InnerResult.processedOf]⟩
  | cons note rest ih =>
      intro st
      rw [runNotes]
      by_cases hlim : limitReached a.limit_count st.processed_count
      · rw [if_pos hlim]
        exact ⟨[], by simp [InnerResult.traceOf], by simp,
          by simp [InnerResult.processedOf]⟩
      · rw [if_neg hlim]
        by_cases hsum : note.summary = ""
        · rw [if_neg (by simp [hsum])]
          cases hext : w.extract note.resolved_url with
          | error e =>
              simp only [hext]
              refine ⟨[.extract note.resolved_url],
                by simp [InnerResult.traceOf], ?_,
                by simp [InnerResult.processedOf]⟩
              intro ev hev
              rcases List.mem_singleton.mp hev with rfl
              exact ⟨note, List.mem_cons_self _ _, hsum, rfl⟩
          | ok url_content =>
              simp only [hext]
              cases hsumm : w.summarize url_content with
              | error e =>
                  simp only [hsumm]
                  refine ⟨[.extract note.resolved_url,
                    .summarize url_content],
                    by simp [InnerResult.traceOf], ?_,
                    by simp [InnerResult.processedOf]⟩
                  intro ev hev
                  rcases List.mem_cons.mp hev with rfl | hev
                  · exact ⟨note, List.mem_cons_self _ _, hsum, rfl⟩
                  · rcases List.mem_singleton.mp hev with rfl
                    exact ⟨note, List.mem_cons_self _ _, hsum⟩
              | ok summary =>
                  simp only [hsumm]
                  by_cases hdry : a.dry_run
                  · rw [if_pos hdry]
                    obtain ⟨tl, htl, hev, hp⟩ :=
                      ih ⟨st.processed_count + 1, st.actions,
                        (st.trace ++ [.extract note.resolved_url] ++
                          [.summarize url_content]) ++
                          [.log (.wouldUpdate note.noteId
                            [("summary", w.markdown summary)])]⟩
                    refine ⟨[.extract note.resolved_url,
                      .summarize url_content,
                      .log (.wouldUpdate note.noteId
                        [("summary", w.markdown summary)])] ++ tl, ?_, ?_, ?_⟩
                    · rw [htl]
                      simp
                    · intro ev hev2
                      rcases List.mem_append.mp hev2 with h | h
                      · rcases List.mem_cons.mp h with rfl | h
                        · exact ⟨note, List.mem_cons_self _ _, hsum, rfl⟩
                        · rcases List.mem_cons.mp h with rfl | h
                          · exact ⟨note, List.mem_cons_self _ _, hsum⟩
                          · rcases List.mem_singleton.mp h with rfl
                            trivial
                      · exact noteEmits_mono (List.subset_cons_self _ _)
                          (hev ev h)
                    · exact le_trans (Nat.le_succ _) hp
                  · rw [if_neg hdry]
                    obtain ⟨tl, htl, hev, hp⟩ :=
                      ih ⟨st.processed_count + 1,
                        st.actions ++ [⟨note.noteId,
                          [("summary", w.markdown summary)]⟩],
                        st.trace ++ [.extract note.resolved_url] ++
                          [.summarize url_content]⟩
                    refine ⟨[.extract note.resolved_url,
                      .summarize url_content] ++ tl, ?_, ?_, ?_⟩
                    · rw [htl]
                      simp
                    · intro ev hev2
                      rcases List.mem_append.mp hev2 with h | h
                      · rcases List.mem_cons.mp h with rfl | h
                        · exact ⟨note, List.mem_cons_self _ _, hsum, rfl⟩
                        · rcases List.mem_singleton.mp h with rfl
                          exact ⟨note, List.mem_cons_self _ _, hsum⟩
                      · exact noteEmits_mono (List.subset_cons_self _ _)
                          (hev ev h)
                    · exact le_trans (Nat.le_succ _) hp
        · rw [if_pos (by simp [hsum])]
          obtain ⟨tl, htl, hev, hp⟩ :=
            ih ⟨st.processed_count, st.actions,
              st.trace ++ [.log (.skippingNote note.noteId)]⟩
          refine ⟨[.log (.skippingNote note.noteId)] ++ tl, ?_, ?_, hp⟩
          · rw [htl]
            simp
          · intro ev hev2
            rcases List.mem_append.mp hev2 with h | h
            · rcases List.mem_singleton.mp h with rfl
              trivial
            · exact noteEmits_mono (List.subset_cons_self _ _) (hev ev h)

/-- When the inner loop ends without raising, the actions it appended all
come from empty-summary notes of the batch, carry exactly the
`{"summary": ...}` fields dict, and are absent in dry-run mode. -/
theorem runNotes_done (w : World) (a : Args) :
    ∀ (notes : List NoteInfo) (st st' : InnerState),
      runNotes w a notes st = .done st' →
      ∃ new, st'.actions = st.actions ++ new ∧
        (∀ act ∈ new, noteStagesAct w notes act) ∧
        (a.dry_run = true → new = []) := by
  intro notes
  induction notes with
  | nil =>
      intro st st' h
      rw [runNotes] at h
      cases h
      exact ⟨[], by simp, by simp, fun _ => rfl⟩
  | cons note rest ih =>
      intro st st' h
      rw [runNotes] at h
      by_cases hlim : limitReached a.limit_count st.processed_count
      · rw [if_pos hlim] at h
        cases h
        exact ⟨[], by simp, by simp, fun _ => rfl⟩
      · rw [if_neg hlim] at h
        by_cases hsum : note.summary = ""
        · rw [if_neg (by simp [hsum])] at h
          cases hext : w.extract note.resolved_url with
          | error e =>
              simp only [hext] at h
              exact (InnerResult.noConfusion h)
          | ok url_content =>
              simp only [hext] at h
              cases hsumm : w.summarize url_content with
              | error e =>
                  simp only [hsumm] at h
                  exact (InnerResult.noConfusion h)
              | ok summary =>
                  simp only [hsumm] at h
                  by_cases hdry : a.dry_run
                  · rw [if_pos hdry] at h
                    obtain ⟨new, hnew, hprov, hdrynil⟩ := ih _ _ h
                    refine ⟨new, hnew, ?_, hdrynil⟩
                    intro act hact
                    exact noteStagesAct_mono (List.subset_cons_self _ _)
                      (hprov act hact)
                  · rw [if_neg hdry] at h
                    obtain ⟨new, hnew, hprov, _⟩ := ih _ _ h
                    refine ⟨⟨note.noteId,
                      [("summary", w.markdown summary)]⟩ :: new, ?_, ?_, ?_⟩
                    · rw [hnew]
                      simp
                    · intro act hact
                      rcases List.mem_cons.mp hact with rfl | hact
                      · exact ⟨note, List.mem_cons_self _ _, hsum, rfl,
                          summary, rfl⟩
                      · exact noteStagesAct_mono (List.subset_cons_self _ _)
                          (hprov act hact)
                    · intro hd
                      exact absurd hd hdry
        · rw [if_pos (by simp [hsum])] at h
          obtain ⟨new, hnew, hprov, hdrynil⟩ := ih _ _ h
          refine ⟨new, hnew, ?_, hdrynil⟩
          intro act hact
          exact noteStagesAct_mono (List.subset_cons_self _ _)
            (hprov act hact)

theorem limitReached_of_truthy_false {lc : Option Int} {p : Nat}
    (h : intTruthy lc = false) : limitReached lc p = false := by
  cases lc with
  | none => rfl
  | some l =>
      simp only [intTruthy] at h
      simp [limitReached, h]

/-- With a positive `--limit-count`, the inner loop never pushes
`processed_count` past the limit. -/
theorem runNotes_processed_le (w : World) (a : Args) (l : Int) (hl : 0 < l)
    (hlc : a.limit_count = some l) :
    ∀ (notes : List NoteInfo) (st : InnerState),
      (st.processed_count : Int) ≤ l →
      ((runNotes w a notes st).processedOf : Int) ≤ l := by
  intro notes
  induction notes with
  | nil =>
      intro st hle
      simpa [runNotes, InnerResult.processedOf] using hle
  | cons note rest ih =>
      intro st hle
      rw [runNotes]
      by_cases hlim : limitReached a.limit_count st.processed_count
      · rw [if_pos hlim]
        simpa [InnerResult.processedOf] using hle
      · rw [if_neg hlim]
        have hlt : (st.processed_count : Int) < l := by
          rw [hlc] at hlim
          simp only [limitReached, Bool.and_eq_true, bne_iff_ne, ne_eq,
            decide_eq_true_eq, ge_iff_le, not_and, not_le] at hlim
          exact hlim (by omega)
        have hsucc : ((st.processed_count + 1 : Nat) : Int) ≤ l := by
          push_cast
          omega
        by_cases hsum : note.summary = ""
        · rw [if_neg (by simp [hsum])]
          cases hext : w.extract note.resolved_url with
          | error e =>
              simp only [hext, InnerResult.processedOf]
              exact hsucc
          | ok url_content =>
              simp only [hext]
              cases hsumm : w.summarize url_content with
              | error e =>
                  simp only [hsumm, InnerResult.processedOf]
                  exact hsucc
              | ok summary =>
                  simp only [hsumm]
                  by_cases hdry : a.dry_run
                  · rw [if_pos hdry]
                    exact ih _ hsucc
                  · rw [if_neg hdry]
                    exact ih _ hsucc
        · rw [if_pos (by simp [hsum])]
          exact ih _ hle

/-- Without a truthy `--limit-count`, an inner loop that ends normally has
attempted exactly the empty-summary notes of the batch. -/
theorem runNotes_no_limit (w : World) (a : Args)
    (hlc : intTruthy a.limit_count = false) :
    ∀ (notes : List NoteInfo) (st st' : InnerState),
      runNotes w a notes st = .done st' →
      st'.processed_count =
        st.processed_count + notes.countP (fun n => n.summary == "") := by
  intro notes
  induction notes with
  | nil =>
      intro st st' h
      rw [runNotes] at h
      cases h
      simp
  | cons note rest ih =>
      intro st st' h
      rw [runNotes] at h
      rw [if_neg (by simp [limitReached_of_truthy_false hlc])] at h
      by_cases hsum : note.summary = ""
      · rw [if_neg (by simp [hsum])] at h
        cases hext : w.extract note.resolved_url with
        | error e =>
            simp only [hext] at h
            exact (InnerResult.noConfusion h)
        | ok url_content =>
            simp only [hext] at h
            cases hsumm : w.summarize url_content with
            | error e =>
                simp only [hsumm] at h
                exact (InnerResult.noConfusion h)
            | ok summary =>
                simp only [hsumm] at h
                have hcnt : (note :: rest).countP
                    (fun n => n.summary == "") =
                    rest.countP (fun n => n.summary == "") + 1 := by
                  rw [List.countP_cons]
                  simp [hsum]
                by_cases hdry : a.dry_run
                · rw [if_pos hdry] at h
                  have := ih _ _ h
                  simp only [InnerState.processed_count] at this ⊢
                  omega
                · rw [if_neg hdry] at h
                  have := ih _ _ h
                  simp only [InnerState.processed_count] at this ⊢
                  omega
      · rw [if_pos (by simp [hsum])] at h
        have := ih _ _ h
        have hcnt : (note :: rest).countP (fun n => n.summary == "") =
            rest.countP (fun n => n.summary == "") := by
          rw [List.countP_cons]
          simp [hsum]
        simp only [InnerState.processed_count] at this ⊢
        omega

/-- A batch whose notes all have a non-empty summary field is only logged:
no extraction, no summarization, nothing staged, nothing counted. -/
theorem runNotes_all_summarized (w : World) (a : Args) :
    ∀ (notes : List NoteInfo) (st : InnerState),
      (∀ n ∈ notes, n.summary ≠ "") →
      ∃ tl, runNotes w a notes st =
          .done ⟨st.processed_count, st.actions, st.trace ++ tl⟩ ∧
        ∀ e ∈ tl, ∃ id, e = Event.log (.skippingNote id) := by
  intro notes
  induction notes with
  | nil =>
      intro st _
      exact ⟨[], by simp [runNotes], by simp⟩
  | cons note rest ih =>
      intro st hall
      rw [runNotes]
      by_cases hlim : limitReached a.limit_count st.processed_count
      · rw [if_pos hlim]
        exact ⟨[], by simp, by simp⟩
      · rw [if_neg hlim]
        have hsum : note.summary ≠ "" := hall note (List.mem_cons_self _ _)
        rw [if_pos (by simp [hsum])]
        obtain ⟨tl, htl, hev⟩ :=
          ih ⟨st.processed_count, st.actions,
            st.trace ++ [.log (.skippingNote note.noteId)]⟩
            (fun n hn => hall n (List.mem_cons_of_mem _ hn))
        refine ⟨[.log (.skippingNote note.noteId)] ++ tl, ?_, ?_⟩
        · rw [htl]
          simp
        · intro e he
          rcases List.mem_append.mp he with h | h
          · rcases List.mem_singleton.mp h with rfl
            exact ⟨note.noteId, rfl⟩
          · exact hev e h

/-- The batch loop only appends events, all of `batchEmits` shape, and never
decreases `processed_count`. -/
theorem runBatches_trace (w : World) (a : Args) :
    ∀ (bs : List (List NoteInfo)) (p : Nat) (tr : List Event),
      ∃ tl, (runBatches w a bs p tr).traceOf = tr ++ tl ∧
        (∀ e ∈ tl, batchEmits w a bs e) ∧
        p ≤ (runBatches w a bs p tr).processedOf := by
  intro bs
  induction bs with
  | nil =>
      intro p tr
      exact ⟨[], by simp [runBatches, OuterResult.traceOf], by simp,
        by simp [runBatches, OuterResult.processedOf]⟩
  | cons batch rest ih =>
      intro p tr
      rw [runBatches]
      by_cases hlim : limitReached a.limit_count p
      · rw [if_pos hlim]
        exact ⟨[], by simp [OuterResult.traceOf], by simp,
          by simp [OuterResult.processedOf]⟩
      · rw [if_neg hlim]
        have hsub : batch ⊆ (batch :: rest).flatten := by
          rw [List.flatten_cons]
          exact List.subset_append_left _ _
        obtain ⟨tl0, htl0, hev0, hp0⟩ := runNotes_trace w a batch ⟨p, [], tr⟩
        cases hrn : runNotes w a batch ⟨p, [], tr⟩ with
        | raised p1 tr1 e =>
            rw [hrn] at htl0 hp0
            simp only [InnerResult.traceOf, InnerResult.processedOf] at htl0 hp0
            refine ⟨tl0, by simp [OuterResult.traceOf, htl0], ?_,
              by simp [OuterResult.processedOf, hp0]⟩
            intro ev hev
            exact noteEmits_to_batchEmits hsub (hev0 ev hev)
        | done st =>
            rw [hrn] at htl0 hp0
            simp only [InnerResult.traceOf, InnerResult.processedOf] at htl0 hp0
            obtain ⟨new, hnew, hprov, hdry⟩ := runNotes_done w a batch _ _ hrn
            simp only [InnerState.actions] at hnew
            rw [List.nil_append] at hnew
            have hmulti : batchEmits w a (batch :: rest)
                (.multi st.actions) := by
              refine ⟨?_, ?_⟩
              · intro act hact
                rw [hnew] at hact
                exact noteStagesAct_mono hsub (hprov act hact)
              · intro hd
                rw [hnew]
                exact hdry hd
            cases hmr : w.multiResult st.actions with
            | error e =>
                simp only [hmr]
                refine ⟨tl0 ++ [.multi st.actions], ?_, ?_, ?_⟩
                · simp [OuterResult.traceOf, htl0]
                · intro ev hev
                  rcases List.mem_append.mp hev with h | h
                  · exact noteEmits_to_batchEmits hsub (hev0 ev h)
                  · rcases List.mem_singleton.mp h with rfl
                    exact hmulti
                · simp only [OuterResult.processedOf]
                  exact hp0
            | ok u =>
                simp only [hmr]
                obtain ⟨tl1, htl1, hev1, hp1⟩ :=
                  ih st.processed_count (st.trace ++ [.multi st.actions])
                refine ⟨tl0 ++ [.multi st.actions] ++ tl1, ?_, ?_, ?_⟩
                · rw [htl1, htl0]
                  simp
                · intro ev hev
                  rcases List.mem_append.mp hev with h | h
                  · rcases List.mem_append.mp h with h2 | h2
                    · exact noteEmits_to_batchEmits hsub (hev0 ev h2)
                    · rcases List.mem_singleton.mp h2 with rfl
                      exact hmulti
                  · exact batchEmits_mono_tail (hev1 ev h)
                · exact le_trans hp0 hp1

/-- With a positive `--limit-count`, the whole batch loop keeps
`processed_count` at or below the limit. -/
theorem runBatches_processed_le (w : World) (a : Args) (l : Int) (hl : 0 < l)
    (hlc : a.limit_count = some l) :
    ∀ (bs : List (List NoteInfo)) (p : Nat) (tr : List Event),
      (p : Int) ≤ l → ((runBatches w a bs p tr).processedOf : Int) ≤ l := by
  intro bs
  induction bs with
  | nil =>
      intro p tr hle
      simpa [runBatches, OuterResult.processedOf] using hle
  | cons batch rest ih =>
      intro p tr hle
      rw [runBatches]
      by_cases hlim : limitReached a.limit_count p
      · rw [if_pos hlim]
        simpa [OuterResult.processedOf] using hle
      · rw [if_neg hlim]
        have hinner := runNotes_processed_le w a l hl hlc batch ⟨p, [], tr⟩ hle
        cases hrn : runNotes w a batch ⟨p, [], tr⟩ with
        | raised p1 tr1 e =>
            rw [hrn] at hinner
            simpa [OuterResult.processedOf] using hinner
        | done st =>
            rw [hrn] at hinner
            simp only [InnerResult.processedOf] at hinner
            cases hmr : w.multiResult st.actions with
            | error e =>
                simp only [hmr]
                simpa [OuterResult.processedOf] using hinner
            | ok u =>
                simp only [hmr]
                exact ih st.processed_count _ hinner

/-- Without a truthy `--limit-count`, a batch loop that completes normally
has attempted exactly the empty-summary notes, and has issued exactly one
`multi` bulk call per batch. -/
theorem runBatches_no_limit (w : World) (a : Args)
    (hlc : intTruthy a.limit_count = false) :
    ∀ (bs : List (List NoteInfo)) (p : Nat) (tr : List Event)
      (p' : Nat) (tr' : List Event),
      runBatches w a bs p tr = .done p' tr' →
      p' = p + bs.flatten.countP (fun n => n.summary == "") ∧
        multiCount tr' = multiCount tr + bs.length := by
  intro bs
  induction bs with
  | nil =>
      intro p tr p' tr' h
      rw [runBatches] at h
      cases h
      simp [multiCount]
  | cons batch rest ih =>
      intro p tr p' tr' h
      rw [runBatches] at h
      rw [if_neg (by simp [limitReached_of_truthy_false hlc])] at h
      obtain ⟨tl0, htl0, hev0, _⟩ := runNotes_trace w a batch ⟨p, [], tr⟩
      cases hrn : runNotes w a batch ⟨p, [], tr⟩ with
      | raised p1 tr1 e =>
          rw [hrn] at h
          exact (OuterResult.noConfusion h)
      | done st =>
          rw [hrn] at h
          rw [hrn] at htl0
          simp only [InnerResult.traceOf] at htl0
          have hst := runNotes_no_limit w a hlc batch _ _ hrn
          simp only [InnerState.processed_count] at hst
          cases hmr : w.multiResult st.actions with
          | error e =>
              simp only [hmr] at h
              exact (OuterResult.noConfusion h)
          | ok u =>
              simp only [hmr] at h
              obtain ⟨hp, hm⟩ := ih _ _ _ _ h
              constructor
              · rw [hp, hst]
                rw [List.flatten_cons, List.countP_append]
                omega
              · rw [hm]
                have hmc : multiCount (st.trace ++ [Event.multi st.actions]) =
                    multiCount tr + 1 := by
                  rw [htl0]
                  simp only [multiCount, List.countP_append]
                  have hz : List.countP Event.isMulti tl0 = 0 := by
                    rw [List.countP_eq_zero]
                    intro e he
                    have := (noteEmits_not_special (hev0 e he)).1
                    simp [this]
                  simp [hz, Event.isMulti, List.countP_cons]
                rw [hmc]
                simp [List.length_cons]
                omega

/-- When every fetched note already has a summary, the batch loop leaves
`processed_count` alone and only emits log lines and empty `multi` calls. -/
theorem runBatches_all_summarized (w : World) (a : Args) :
    ∀ (bs : List (List NoteInfo)) (p : Nat) (tr : List Event),
      (∀ n ∈ bs.flatten, n.summary ≠ "") →
      (runBatches w a bs p tr).processedOf = p ∧
        ∃ tl, (runBatches w a bs p tr).traceOf = tr ++ tl ∧
          ∀ e ∈ tl, (∃ m, e = Event.log m) ∨ e = Event.multi [] := by
  intro bs
  induction bs with
  | nil =>
      intro p tr _
      exact ⟨by simp [runBatches, OuterResult.processedOf],
        ⟨[], by simp [runBatches, OuterResult.traceOf], by simp⟩⟩
  | cons batch rest ih =>
      intro p tr hall
      have hbatch : ∀ n ∈ batch, n.summary ≠ "" := by
        intro n hn
        exact hall n (by rw [List.flatten_cons]; exact
          List.mem_append_left _ hn)
      have hrest : ∀ n ∈ rest.flatten, n.summary ≠ "" := by
        intro n hn
        exact hall n (by rw [List.flatten_cons]; exact
          List.mem_append_right _ hn)
      rw [runBatches]
      by_cases hlim : limitReached a.limit_count p
      · rw [if_pos hlim]
        exact ⟨by simp [OuterResult.processedOf],
          ⟨[], by simp [OuterResult.traceOf], by simp⟩⟩
      · rw [if_neg hlim]
        obtain ⟨tl0, hrn, hev0⟩ :=
          runNotes_all_summarized w a batch ⟨p, [], tr⟩ hbatch
        rw [hrn]
        simp only [InnerState.processed_count, InnerState.actions,
          InnerState.trace]
        cases hmr : w.multiResult [] with
        | error e =>
            simp only [hmr]
            refine ⟨by simp [OuterResult.processedOf], ?_⟩
            refine ⟨tl0 ++ [.multi []], by
              simp [OuterResult.traceOf], ?_⟩
            intro e2 he2
            rcases List.mem_append.mp he2 with h | h
            · obtain ⟨id, hid⟩ := hev0 e2 h
              exact Or.inl ⟨_, hid⟩
            · rcases List.mem_singleton.mp h with rfl
              exact Or.inr rfl
        | ok u =>
            simp only [hmr]
            obtain ⟨hp1, tl1, htl1, hev1⟩ :=
              ih p ((tr ++ tl0) ++ [.multi []]) hrest
            refine ⟨hp1, ⟨tl0 ++ [.multi []] ++ tl1, ?_, ?_⟩⟩
            · rw [htl1]
              simp
            · intro e2 he2
              rcases List.mem_append.mp he2 with h | h
              · rcases List.mem_append.mp h with h2 | h2
                · obtain ⟨id, hid⟩ := hev0 e2 h2
                  exact Or.inl ⟨_, hid⟩
                · rcases List.mem_singleton.mp h2 with rfl
                  exact Or.inr rfl
              · exact hev1 e2 h

/-! ## Case decomposition of `_main` -/

theorem _main_eq_empty (w : World) (a : Args) (h : w.findNotesResult = []) :
    _main w a =
      ⟨.ok (some 0),
        [.log .syncingAnki, .sync, .findNotes (builtQuery a),
          .log .noMatchingNotes], 0⟩ := by
  unfold _main
  rw [if_pos (by simp [h])]
  rfl

theorem _main_eq_noinfos (w : World) (a : Args)
    (h1 : w.findNotesResult ≠ []) (h2 : w.notesInfoResult = []) :
    _main w a = ⟨.ok none, preBatchTrace w a, 0⟩ := by
  unfold _main
  rw [if_neg (by simp [h1]), if_pos (by simp [h2])]

theorem _main_eq_batches (w : World) (a : Args)
    (h1 : w.findNotesResult ≠ []) (h2 : w.notesInfoResult ≠ []) :
    (_main w a).trace =
      (runBatches w a (batchedGo BATCH_SIZE w.notesInfoResult) 0
        (preBatchTrace w a)).traceOf ++ ankiSyncEvents ∧
    (_main w a).processed_count =
      (runBatches w a (batchedGo BATCH_SIZE w.notesInfoResult) 0
        (preBatchTrace w a)).processedOf ∧
    (_main w a).ret =
      (match runBatches w a (batchedGo BATCH_SIZE w.notesInfoResult) 0
          (preBatchTrace w a) with
        | .done _ _ => Except.ok none
        | .raised _ _ e => Except.error e) := by
  unfold _main
  rw [if_neg (by simp [h1]), if_neg (by simp [h2])]
  cases runBatches w a (batchedGo BATCH_SIZE w.notesInfoResult) 0
      (preBatchTrace w a) with
  | done p tr => exact ⟨rfl, rfl, rfl⟩
  | raised p tr e => exact ⟨rfl, rfl, rfl⟩

/-- Every event of the optional limit log is a log line. -/
theorem limitLogEvents_log (a : Args) (e : Event) (he : e ∈ limitLogEvents a) :
    ∃ m, e = Event.log m := by
  unfold limitLogEvents at he
  split at he
  · simp at he
  · split at he
    · rcases List.mem_singleton.mp he with rfl
      exact ⟨_, rfl⟩
    · simp at he

theorem ankiSyncEvents_events (e : Event) (he : e ∈ ankiSyncEvents) :
    e.isMulti = false ∧ e.isExtract = false ∧ e.isSummarize = false := by
  unfold ankiSyncEvents at he
  rcases List.mem_cons.mp he with rfl | he
  · simp [Event.isMulti, Event.isExtract, Event.isSummarize]
  · rcases List.mem_singleton.mp he with rfl
    simp [Event.isMulti, Event.isExtract, Event.isSummarize]

/-- The pre-batch part of the trace contains no `multi`, `extract` or
`summarize` events. -/
theorem preBatchTrace_events (w : World) (a : Args) (e : Event)
    (he : e ∈ preBatchTrace w a) :
    e.isMulti = false ∧ e.isExtract = false ∧ e.isSummarize = false := by
  unfold preBatchTrace at he
  rcases List.mem_append.mp he with h | h
  · rcases List.mem_append.mp h with h2 | h2
    · rcases List.mem_append.mp h2 with h3 | h3
      · exact ankiSyncEvents_events e h3
      · rcases List.mem_singleton.mp h3 with rfl
        simp [Event.isMulti, Event.isExtract, Event.isSummarize]
    · obtain ⟨m, rfl⟩ := limitLogEvents_log a e h2
      simp [Event.isMulti, Event.isExtract, Event.isSummarize]
  · rcases List.mem_cons.mp h with rfl | h2
    · simp [Event.isMulti, Event.isExtract, Event.isSummarize]
    · rcases List.mem_singleton.mp h2 with rfl
      simp [Event.isMulti, Event.isExtract, Event.isSummarize]

theorem countP_eq_zero_of_mem {p : Event → Bool} {tr : List Event}
    (h : ∀ e ∈ tr, p e = false) : tr.countP p = 0 := by
  rw [List.countP_eq_zero]
  intro e he
  simp [h e he]

theorem stagedActions_append (tr1 tr2 : List Event) :
    stagedActions (tr1 ++ tr2) = stagedActions tr1 ++ stagedActions tr2 := by
  simp [stagedActions]

theorem stagedActions_eq_nil_of_no_multi {tr : List Event}
    (h : ∀ e ∈ tr, e.isMulti = false) : stagedActions tr = [] := by
  induction tr with
  | nil => rfl
  | cons e rest ih =>
      have he := h e (List.mem_cons_self _ _)
      have hrest := ih (fun e2 h2 => h e2 (List.mem_cons_of_mem _ h2))
      cases e <;> simp [stagedActions] at hrest ⊢ <;>
        first
        | exact hrest
        | simp [Event.isMulti] at he

theorem mem_stagedActions {tr : List Event} {act : UpdateAction}
    (h : act ∈ stagedActions tr) :
    ∃ acts, Event.multi acts ∈ tr ∧ act ∈ acts := by
  induction tr with
  | nil => simp [stagedActions] at h
  | cons e rest ih =>
      rw [show e :: rest = [e] ++ rest from rfl, stagedActions_append] at h
      rcases List.mem_append.mp h with h2 | h2
      · cases e with
        | multi acts =>
            refine ⟨acts, List.mem_cons_self _ _, ?_⟩
            simpa [stagedActions] using h2
        | log m => simp [stagedActions] at h2
        | sync => simp [stagedActions] at h2
        | findNotes q => simp [stagedActions] at h2
        | notesInfo ids => simp [stagedActions] at h2
        | extract u => simp [stagedActions] at h2
        | summarize c => simp [stagedActions] at h2
      · obtain ⟨acts, hm, ha⟩ := ih h2
        exact ⟨acts, List.mem_cons_of_mem _ hm, ha⟩

/-! ## Concrete fixtures for witnesses and counterexamples -/

def okExtract : String → Except String String := fun _ => .ok "article text"

def okSummarize : String → Except String String :=
  fun _ => .ok "summary text"

def okMarkdown : String → String := fun s => "<p>" ++ s ++ "</p>"

def okMulti : List UpdateAction → Except String Unit := fun _ => .ok ()

def noteA : NoteInfo := ⟨101, "", "http://example.com/a"⟩

def noteDone : NoteInfo := ⟨102, "<p>old summary</p>", "http://example.com/b"⟩

def wOneNote : World :=
  ⟨[101], [noteA], okExtract, okSummarize, okMarkdown, okMulti⟩

def wEmptySearch : World :=
  ⟨[], [], okExtract, okSummarize, okMarkdown, okMulti⟩

def wAllSummarized : World :=
  ⟨[102], [noteDone], okExtract, okSummarize, okMarkdown, okMulti⟩

def wExtractErr : World :=
  ⟨[101], [noteA], fun _ => .error "requests.exceptions.ConnectionError",
    okSummarize, okMarkdown, okMulti⟩

def wThreeNotes : World :=
  ⟨[1, 2, 3], [⟨1, "", "u1"⟩, ⟨2, "", "u2"⟩, ⟨3, "", "u3"⟩],
    okExtract, okSummarize, okMarkdown, okMulti⟩

def manyNotes : List NoteInfo :=
  (List.range 26).map fun i =>
    ⟨Int.ofNat (200 + i), "", "http://example.com/p" ++ toString i⟩

def wManyNotes : World :=
  ⟨(List.range 26).map (fun i => Int.ofNat (200 + i)), manyNotes,
    okExtract, okSummarize, okMarkdown, okMulti⟩

def argsDefault : Args := ⟨false, defaultQuery, none, none⟩

def argsDryRun : Args := ⟨true, defaultQuery, none, none⟩

def argsLimit0 : Args := ⟨false, defaultQuery, some 0, none⟩

def argsLimit2 : Args := ⟨false, defaultQuery, some 2, none⟩

/-! ## Claim theorems -/

/-- C7: for every note-store request whose decoded JSON response has a
non-null `error` field, `AnkiConnectRequest.request` logs a warning and
returns the response's `result` to the caller without raising and without
retrying (exactly one HTTP post is issued, the error branch performs no
raise — the function returns normally on it). -/
theorem claim_error_response_logged_not_raised {α : Type}
    (respond : AnkiPayload → AnkiResponse α) (payload : AnkiPayload)
    (herr : (respond
      { payload with version := some ANKICONNECT_VERSION }).error.isSome) :
    (AnkiConnectRequest.request respond payload).1 =
      [.post { payload with version := some ANKICONNECT_VERSION },
        .warnLog { payload with version := some ANKICONNECT_VERSION }
          (respond { payload with version := some ANKICONNECT_VERSION }).error]
      ∧
    (AnkiConnectRequest.request respond payload).2.result =
      (respond { payload with version := some ANKICONNECT_VERSION }).result :=
  by
  unfold AnkiConnectRequest.request
  rw [if_pos herr]
  exact ⟨rfl, rfl⟩

def errRespond : AnkiPayload → AnkiResponse (Option String) :=
  fun _ => ⟨none, some "collection is not available"⟩

def findNotesPayload : AnkiPayload := ⟨"findNotes", "query", none⟩

theorem claim_error_response_logged_not_raised_witness :
    (AnkiConnectRequest.request errRespond findNotesPayload).1 =
      [.post ⟨"findNotes", "query", some 6⟩,
        .warnLog ⟨"findNotes", "query", some 6⟩
          (some "collection is not available")] ∧
    (AnkiConnectRequest.request errRespond findNotesPayload).2.result =
      (errRespond ⟨"findNotes", "query", some 6⟩).result :=
  claim_error_response_logged_not_raised errRespond findNotesPayload
    (by decide)

/-- C8, counterexample to the claim as stated: a subprocess run that
succeeds (exit code 0, no timeout) but writes the single byte `0x80`
(not valid UTF-8) to stdout still makes `markdown_llm_summarize` raise
(`UnicodeDecodeError` from `summary.decode(encoding="utf-8",
errors="strict")`), so "raises if and only if the subprocess does not
succeed" is false. -/
theorem claim_summarizer_decode_counterexample :
    (SubprocResult.completed 0 [128]).succeeded = true ∧
    (markdown_llm_summarize (.completed 0 [128])).raises = true ∧
    markdown_llm_summarize (.completed 0 [128]) =
      SummarizeOutcome.unicodeDecodeError := by
  refine ⟨rfl, rfl, rfl⟩

/-- C8, amended: `markdown_llm_summarize` raises if and only if the
subprocess does not succeed (non-zero exit, or the 60-second timeout) or
its stdout is not valid UTF-8; on exit code 0 with UTF-8-decodable stdout
it returns the decoded stdout. -/
theorem claim_summarizer_error_iff_amended (communicate : SubprocResult) :
    ((markdown_llm_summarize communicate).raises = false ↔
      communicate.succeeded = true ∧
        (utf8Decode communicate.stdoutBytes).isSome = true) ∧
    (∀ s, markdown_llm_summarize communicate = .ok s ↔
      communicate.succeeded = true ∧
        utf8Decode communicate.stdoutBytes = some s) := by
  cases communicate with
  | timeout =>
      constructor
      · simp [markdown_llm_summarize, SummarizeOutcome.raises,
          SubprocResult.succeeded]
      · intro s
        simp [markdown_llm_summarize, SubprocResult.succeeded]
  | completed returncode stdout =>
      by_cases hrc : returncode = 0
      · subst hrc
        cases hdec : utf8Decode stdout with
        | none =>
            constructor
            · simp [markdown_llm_summarize, hdec, SummarizeOutcome.raises,
                SubprocResult.succeeded, SubprocResult.stdoutBytes]
            · intro s
              simp [markdown_llm_summarize, hdec, SubprocResult.succeeded,
                SubprocResult.stdoutBytes]
        | some t =>
            constructor
            · simp [markdown_llm_summarize, hdec, SummarizeOutcome.raises,
                SubprocResult.succeeded, SubprocResult.stdoutBytes]
            · intro s
              simp [markdown_llm_summarize, hdec, SubprocResult.succeeded,
                SubprocResult.stdoutBytes]
      · constructor
        · simp [markdown_llm_summarize, hrc, SummarizeOutcome.raises,
            SubprocResult.succeeded]
        · intro s
          simp [markdown_llm_summarize, hrc, SubprocResult.succeeded]

theorem claim_summarizer_error_iff_amended_witness :
    ((markdown_llm_summarize (.completed 0 [104, 105])).raises = false ↔
      (SubprocResult.completed 0 [104, 105]).succeeded = true ∧
        (utf8Decode (SubprocResult.completed 0 [104, 105]).stdoutBytes).isSome
          = true) ∧
    (∀ s, markdown_llm_summarize (.completed 0 [104, 105]) = .ok s ↔
      (SubprocResult.completed 0 [104, 105]).succeeded = true ∧
        utf8Decode (SubprocResult.completed 0 [104, 105]).stdoutBytes =
          some s) :=
  claim_summarizer_error_iff_amended (.completed 0 [104, 105])

/-- C9: for `n ≥ 1`, concatenating the batches of `batched(s, n)` in order
yields `s`, every batch except possibly the last has length exactly `n`,
the last has length between 1 and `n`; for `n < 1`, `batched` raises
`ValueError` before yielding anything. -/
theorem claim_batched_partition {α : Type} (l : List α) (n : Int) :
    (n < 1 → batched l n = .error "n must be at least one") ∧
    (1 ≤ n → ∃ bs, batched l n = .ok bs ∧
      bs.flatten = l ∧
      (∀ b ∈ bs, 1 ≤ b.length ∧ b.length ≤ n.toNat) ∧
      (∀ i b, i + 1 < bs.length → bs[i]? = some b →
        b.length = n.toNat)) := by
  constructor
  · intro h
    rw [batched, if_pos h]
  · intro h
    refine ⟨batchedGo n.toNat l, ?_, batchedGo_join _ _, ?_, ?_⟩
    · rw [batched, if_neg (by omega)]
    · intro b hb
      exact batchedGo_mem_length n.toNat (by omega) l b hb
    · intro i b hi hb
      exact batchedGo_init_length n.toNat (by omega) l i hi b hb

theorem claim_batched_partition_witness :
    ((-1 : Int) < 1 →
      batched ([10, 20, 30, 40, 50] : List Nat) (-1) =
        .error "n must be at least one") ∧
    ((1 : Int) ≤ 2 → ∃ bs, batched ([10, 20, 30, 40, 50] : List Nat) 2 =
        .ok bs ∧
      bs.flatten = [10, 20, 30, 40, 50] ∧
      (∀ b ∈ bs, 1 ≤ b.length ∧ b.length ≤ (2 : Int).toNat) ∧
      (∀ i b, i + 1 < bs.length → bs[i]? = some b →
        b.length = (2 : Int).toNat)) :=
  ⟨(claim_batched_partition [10, 20, 30, 40, 50] (-1)).1,
    (claim_batched_partition [10, 20, 30, 40, 50] 2).2⟩

theorem stagedActions_eq_nil_of_multi_nil {tr : List Event}
    (h : ∀ acts, Event.multi acts ∈ tr → acts = []) :
    stagedActions tr = [] := by
  rw [List.eq_nil_iff_forall_not_mem]
  intro act hact
  obtain ⟨acts, hm, ha⟩ := mem_stagedActions hact
  rw [h acts hm] at ha
  simp at ha

/-- C6: on an empty search result `_main` logs the no-matching-notes line
(a literal whose text begins with `"No matching notes found"`), issues no
`notesInfo` detail fetch and no `multi` update call, and returns 0 (which
`main` passes to `sys.exit`). -/
theorem claim_empty_search_result (w : World) (a : Args)
    (h : w.findNotesResult = []) :
    (_main w a).ret = .ok (some 0) ∧
    Event.log .noMatchingNotes ∈ (_main w a).trace ∧
    "No matching notes found".data.isPrefixOf
      LogMsg.noMatchingNotes.text.data = true ∧
    (_main w a).trace.countP Event.isNotesInfo = 0 ∧
    multiCount (_main w a).trace = 0 := by
  rw [_main_eq_empty w a h]
  refine ⟨rfl, by simp, by decide, ?_, ?_⟩
  · simp [List.countP_cons, Event.isNotesInfo]
  · simp [multiCount, List.countP_cons, Event.isMulti]

theorem claim_empty_search_result_witness :
    (_main wEmptySearch argsDefault).ret = .ok (some 0) ∧
    Event.log .noMatchingNotes ∈ (_main wEmptySearch argsDefault).trace ∧
    "No matching notes found".data.isPrefixOf
      LogMsg.noMatchingNotes.text.data = true ∧
    (_main wEmptySearch argsDefault).trace.countP Event.isNotesInfo = 0 ∧
    multiCount (_main wEmptySearch argsDefault).trace = 0 :=
  claim_empty_search_result wEmptySearch argsDefault rfl

/-- C5: in dry-run mode no UpdateAction is ever staged: the actions
submitted across all `multi` bulk calls of the run are `[]`, even when
notes satisfy all conditions for processing. -/
theorem claim_dry_run_stages_nothing (w : World) (a : Args)
    (hdry : a.dry_run = true) :
    stagedActions (_main w a).trace = [] := by
  by_cases h1 : w.findNotesResult = []
  · rw [_main_eq_empty w a h1]
    rfl
  · by_cases h2 : w.notesInfoResult = []
    · rw [_main_eq_noinfos w a h1 h2]
      exact stagedActions_eq_nil_of_no_multi
        (fun e he => (preBatchTrace_events w a e he).1)
    · obtain ⟨htr, _, _⟩ := _main_eq_batches w a h1 h2
      rw [htr]
      obtain ⟨tl, htl, hev, _⟩ :=
        runBatches_trace w a (batchedGo BATCH_SIZE w.notesInfoResult) 0
          (preBatchTrace w a)
      rw [htl, stagedActions_append, stagedActions_append]
      have h3 : stagedActions (preBatchTrace w a) = [] :=
        stagedActions_eq_nil_of_no_multi
          (fun e he => (preBatchTrace_events w a e he).1)
      have h4 : stagedActions tl = [] := by
        apply stagedActions_eq_nil_of_multi_nil
        intro acts hm
        exact (hev _ hm).2 hdry
      have h5 : stagedActions ankiSyncEvents = [] := rfl
      rw [h3, h4, h5]
      rfl

theorem claim_dry_run_stages_nothing_witness :
    argsDryRun.dry_run = true ∧
    stagedActions (_main wOneNote argsDryRun).trace = [] :=
  ⟨rfl, claim_dry_run_stages_nothing wOneNote argsDryRun rfl⟩

/-- C10: every UpdateAction submitted by a `multi` call carries a `fields`
dict whose only key is `"summary"`, mapped to the markdown-converted
summary, so an update never touches any other note field. -/
theorem claim_update_action_only_summary (w : World) (a : Args)
    (act : UpdateAction) (hact : act ∈ stagedActions (_main w a).trace) :
    act.fields.map Prod.fst = ["summary"] ∧
    ∃ s, act.fields = [("summary", w.markdown s)] := by
  have hprov : ∃ s, act.fields = [("summary", w.markdown s)] := by
    by_cases h1 : w.findNotesResult = []
    · rw [_main_eq_empty w a h1] at hact
      simp [stagedActions] at hact
    · by_cases h2 : w.notesInfoResult = []
      · rw [_main_eq_noinfos w a h1 h2] at hact
        rw [show (⟨Except.ok none, preBatchTrace w a, 0⟩ :
            MainResult).trace = preBatchTrace w a from rfl] at hact
        rw [stagedActions_eq_nil_of_no_multi
          (fun e he => (preBatchTrace_events w a e he).1)] at hact
        simp at hact
      · obtain ⟨htr, _, _⟩ := _main_eq_batches w a h1 h2
        rw [htr] at hact
        obtain ⟨tl, htl, hev, _⟩ :=
          runBatches_trace w a (batchedGo BATCH_SIZE w.notesInfoResult) 0
            (preBatchTrace w a)
        rw [htl, stagedActions_append, stagedActions_append] at hact
        rw [stagedActions_eq_nil_of_no_multi
          (fun e he => (preBatchTrace_events w a e he).1)] at hact
        rw [show stagedActions ankiSyncEvents = [] from rfl] at hact
        simp only [List.nil_append, List.append_nil] at hact
        obtain ⟨acts, hm, ha⟩ := mem_stagedActions hact
        obtain ⟨note, hnote, hsum, hid, s, hfields⟩ := (hev _ hm).1 act ha
        exact ⟨s, hfields⟩
  obtain ⟨s, hs⟩ := hprov
  exact ⟨by rw [hs]; rfl, ⟨s, hs⟩⟩

theorem claim_update_action_only_summary_witness :
    (UpdateAction.mk 101 [("summary", "<p>summary text</p>")]).fields.map
      Prod.fst = ["summary"] ∧
    ∃ s, (UpdateAction.mk 101
      [("summary", "<p>summary text</p>")]).fields =
        [("summary", wOneNote.markdown s)] :=
  claim_update_action_only_summary wOneNote argsDefault
    ⟨101, [("summary", "<p>summary text</p>")]⟩ (by decide)

/-- C1: a note whose summary field is non-empty is never extracted,
summarized, or staged: every staged action and every extraction call in any
run belongs to a note with an empty summary field, and in a run where every
fetched note already has a summary the trace shows no extraction call, no
summarizer invocation, no staged action, and `processed_count = 0` — a
no-op besides log lines. -/
theorem claim_skip_summarized_notes (w : World) (a : Args) :
    (∀ act ∈ stagedActions (_main w a).trace,
      ∃ note ∈ w.notesInfoResult, note.summary = "" ∧
        act.id = note.noteId) ∧
    (∀ url, Event.extract url ∈ (_main w a).trace →
      ∃ note ∈ w.notesInfoResult, note.summary = "" ∧
        url = note.resolved_url) ∧
    ((∀ note ∈ w.notesInfoResult, note.summary ≠ "") →
      extractCount (_main w a).trace = 0 ∧
      summarizeCount (_main w a).trace = 0 ∧
      stagedActions (_main w a).trace = [] ∧
      (_main w a).processed_count = 0) := by
  by_cases h1 : w.findNotesResult = []
  · rw [_main_eq_empty w a h1]
    refine ⟨?_, ?_, ?_⟩
    · intro act hact
      simp [stagedActions] at hact
    · intro url hurl
      simp at hurl
    · intro _
      refine ⟨?_, ?_, rfl, rfl⟩
      · simp [extractCount, List.countP_cons, Event.isExtract]
      · simp [summarizeCount, List.countP_cons, Event.isSummarize]
  · by_cases h2 : w.notesInfoResult = []
    · rw [_main_eq_noinfos w a h1 h2]
      refine ⟨?_, ?_, ?_⟩
      · intro act hact
        rw [show (⟨Except.ok none, preBatchTrace w a, 0⟩ :
            MainResult).trace = preBatchTrace w a from rfl] at hact
        rw [stagedActions_eq_nil_of_no_multi
          (fun e he => (preBatchTrace_events w a e he).1)] at hact
        simp at hact
      · intro url hurl
        have := (preBatchTrace_events w a _ hurl).2.1
        simp [Event.isExtract] at this
      · intro _
        refine ⟨?_, ?_, ?_, rfl⟩
        · exact countP_eq_zero_of_mem
            (fun e he => (preBatchTrace_events w a e he).2.1)
        · exact countP_eq_zero_of_mem
            (fun e he => (preBatchTrace_events w a e he).2.2)
        · exact stagedActions_eq_nil_of_no_multi
            (fun e he => (preBatchTrace_events w a e he).1)
    · obtain ⟨htr, hpc, _⟩ := _main_eq_batches w a h1 h2
      obtain ⟨tl, htl, hev, _⟩ :=
        runBatches_trace w a (batchedGo BATCH_SIZE w.notesInfoResult) 0
          (preBatchTrace w a)
      have hflat : (batchedGo BATCH_SIZE w.notesInfoResult).flatten =
          w.notesInfoResult := batchedGo_join _ _
      refine ⟨?_, ?_, ?_⟩
      · intro act hact
        rw [htr, htl, stagedActions_append, stagedActions_append] at hact
        rw [stagedActions_eq_nil_of_no_multi
          (fun e he => (preBatchTrace_events w a e he).1)] at hact
        rw [show stagedActions ankiSyncEvents = [] from rfl] at hact
        simp only [List.nil_append, List.append_nil] at hact
        obtain ⟨acts, hm, ha⟩ := mem_stagedActions hact
        obtain ⟨note, hnote, hsum, hid, _, _⟩ := (hev _ hm).1 act ha
        rw [hflat] at hnote
        exact ⟨note, hnote, hsum, hid⟩
      · intro url hurl
        rw [htr, htl] at hurl
        rcases List.mem_append.mp hurl with h | h
        · rcases List.mem_append.mp h with h3 | h3
          · have := (preBatchTrace_events w a _ h3).2.1
            simp [Event.isExtract] at this
          · obtain ⟨note, hnote, hrest⟩ := hev _ h3
            rw [hflat] at hnote
            exact ⟨note, hnote, hrest⟩
        · have := (ankiSyncEvents_events _ h).2.1
          simp [Event.isExtract] at this
      · intro hall
        have hall2 : ∀ n ∈ (batchedGo BATCH_SIZE w.notesInfoResult).flatten,
            n.summary ≠ "" := by
          intro n hn
          rw [hflat] at hn
          exact hall n hn
        obtain ⟨hp, tl2, htl2, hev2⟩ :=
          runBatches_all_summarized w a
            (batchedGo BATCH_SIZE w.notesInfoResult) 0 (preBatchTrace w a)
            hall2
        have hnolog : ∀ e ∈ tl2, e.isExtract = false ∧
            e.isSummarize = false := by
          intro e he
          rcases hev2 e he with ⟨m, rfl⟩ | rfl
          · exact ⟨rfl, rfl⟩
          · exact ⟨rfl, rfl⟩
        refine ⟨?_, ?_, ?_, ?_⟩
        · rw [htr, htl2]
          simp only [extractCount, List.countP_append]
          rw [countP_eq_zero_of_mem
            (fun e he => (preBatchTrace_events w a e he).2.1),
            countP_eq_zero_of_mem (fun e he => (hnolog e he).1),
            countP_eq_zero_of_mem
            (fun e he => (ankiSyncEvents_events e he).2.1)]
        · rw [htr, htl2]
          simp only [summarizeCount, List.countP_append]
          rw [countP_eq_zero_of_mem
            (fun e he => (preBatchTrace_events w a e he).2.2),
            countP_eq_zero_of_mem (fun e he => (hnolog e he).2),
            countP_eq_zero_of_mem
            (fun e he => (ankiSyncEvents_events e he).2.2)]
        · rw [htr, htl2, stagedActions_append, stagedActions_append]
          rw [stagedActions_eq_nil_of_no_multi
            (fun e he => (preBatchTrace_events w a e he).1)]
          rw [show stagedActions ankiSyncEvents = [] from rfl]
          rw [stagedActions_eq_nil_of_multi_nil (fun acts hm => by
            rcases hev2 _ hm with ⟨m, hlog⟩ | hnil
            · exact (Event.noConfusion hlog)
            · exact (Event.multi.inj hnil))]
          rfl
        · rw [hpc, hp]

theorem claim_skip_summarized_notes_witness :
    extractCount (_main wAllSummarized argsDefault).trace = 0 ∧
    summarizeCount (_main wAllSummarized argsDefault).trace = 0 ∧
    stagedActions (_main wAllSummarized argsDefault).trace = [] ∧
    (_main wAllSummarized argsDefault).processed_count = 0 :=
  (claim_skip_summarized_notes wAllSummarized argsDefault).2.2 (by decide)

def wThreeExtractErr : World :=
  ⟨[1, 2, 3], [⟨1, "", "u1"⟩, ⟨2, "", "u2"⟩, ⟨3, "", "u3"⟩],
    fun _ => .error "requests.exceptions.ConnectionError",
    okSummarize, okMarkdown, okMulti⟩

/-- C2, counterexample to the claim as stated: `--limit-count 0` is a set
limit, but `0` is falsy in Python, so `args.limit_count and ...` never
breaks and every unsummarized note is processed — `processed_count = 1`
exceeds the limit `0`.  And with the limit unset, a run aborted by an
extraction exception attempts only 1 of its 3 unsummarized notes, so "every
unsummarized note in the fetched set is processed" also needs the run not
to raise. -/
theorem claim_limit_zero_counterexample :
    (argsLimit0.limit_count = some 0 ∧
      (_main wOneNote argsLimit0).processed_count = 1 ∧
      ¬ (((_main wOneNote argsLimit0).processed_count : Int) ≤ 0)) ∧
    (argsDefault.limit_count = none ∧
      (_main wThreeExtractErr argsDefault).processed_count = 1 ∧
      wThreeExtractErr.notesInfoResult.countP
        (fun n => n.summary == "") = 3) := by
  exact ⟨⟨rfl, by decide, by decide⟩, ⟨rfl, by decide, by decide⟩⟩

/-- C2, amended: with a positive `--limit-count` the number of notes that
undergo a summarization attempt never exceeds the limit (the check runs
before each batch and before each note); with the limit unset — or set to
the falsy `0` — a run that raises no exception processes exactly the
unsummarized notes of the fetched set. -/
theorem claim_limit_enforced_amended (w : World) (a : Args) :
    (∀ l : Int, a.limit_count = some l → 0 < l →
      ((_main w a).processed_count : Int) ≤ l) ∧
    (intTruthy a.limit_count = false → w.findNotesResult ≠ [] →
      ∀ r, (_main w a).ret = .ok r →
      (_main w a).processed_count =
        w.notesInfoResult.countP (fun n => n.summary == "")) := by
  constructor
  · intro l hlc hl
    by_cases h1 : w.findNotesResult = []
    · rw [_main_eq_empty w a h1]
      simpa using hl.le
    · by_cases h2 : w.notesInfoResult = []
      · rw [_main_eq_noinfos w a h1 h2]
        simpa using hl.le
      · obtain ⟨_, hpc, _⟩ := _main_eq_batches w a h1 h2
        rw [hpc]
        exact runBatches_processed_le w a l hl hlc _ 0 _ (by omega)
  · intro hlc h1 r hret
    by_cases h2 : w.notesInfoResult = []
    · rw [_main_eq_noinfos w a h1 h2]
      rw [h2]
      rfl
    · obtain ⟨_, hpc, hr⟩ := _main_eq_batches w a h1 h2
      cases hrb : runBatches w a (batchedGo BATCH_SIZE w.notesInfoResult) 0
          (preBatchTrace w a) with
      | raised p tr e =>
          rw [hr, hrb] at hret
          exact (Except.noConfusion hret)
      | done p tr =>
          rw [hpc, hrb]
          obtain ⟨hp, _⟩ := runBatches_no_limit w a hlc _ 0 _ p tr hrb
          rw [show (OuterResult.done p tr).processedOf = p from rfl, hp,
            batchedGo_join]
          simp

theorem claim_limit_enforced_amended_witness :
    (((_main wThreeNotes argsLimit2).processed_count : Int) ≤ 2) ∧
    ((_main wOneNote argsDefault).processed_count =
      wOneNote.notesInfoResult.countP (fun n => n.summary == "")) :=
  ⟨(claim_limit_enforced_amended wThreeNotes argsLimit2).1 2 rfl
      (by decide),
    (claim_limit_enforced_amended wOneNote argsDefault).2 rfl
      (by decide) none rfl⟩

/-- C3, counterexample to the claim as stated: on the empty-search-result
early exit (`return 0` at source line 202) the `try`/`finally` wrapping the
batch loop is never entered, so no sync is issued after processing ends —
the whole trace holds exactly one sync, the pre-search one, and does not
end in a sync. -/
theorem claim_sync_after_missing_counterexample :
    wEmptySearch.findNotesResult = [] ∧
    (_main wEmptySearch argsDefault).trace =
      [.log .syncingAnki, .sync, .findNotes defaultQuery,
        .log .noMatchingNotes] ∧
    syncCount (_main wEmptySearch argsDefault).trace = 1 ∧
    (_main wEmptySearch argsDefault).trace.getLast? ≠ some Event.sync := by
  exact ⟨rfl, rfl, by decide, by decide⟩

/-- C3, amended: a sync call is issued strictly before the first search
call in every run (the trace always starts `sync`-log, `sync`,
`findNotes`); whenever the detail fetch returns a non-empty list, a second
sync is issued after the batch loop, both on normal completion and on the
path where the loop raised, before the exception propagates (the trace
ends with the `anki_sync()` events in both cases); on the
empty-search-result early exit, and when the detail fetch returns an empty
list, no second sync is issued. -/
theorem claim_sync_bracketing_amended (w : World) (a : Args) :
    ((_main w a).trace.take 3 =
      [.log .syncingAnki, .sync, .findNotes (builtQuery a)]) ∧
    (w.findNotesResult ≠ [] → w.notesInfoResult ≠ [] →
      ∃ pre, (_main w a).trace = pre ++ ankiSyncEvents) ∧
    ((w.findNotesResult = [] ∨ w.notesInfoResult = []) →
      syncCount (_main w a).trace = 1) := by
  refine ⟨?_, ?_, ?_⟩
  · by_cases h1 : w.findNotesResult = []
    · rw [_main_eq_empty w a h1]
      rfl
    · by_cases h2 : w.notesInfoResult = []
      · rw [_main_eq_noinfos w a h1 h2]
        rfl
      · obtain ⟨htr, _, _⟩ := _main_eq_batches w a h1 h2
        obtain ⟨tl, htl, _, _⟩ :=
          runBatches_trace w a (batchedGo BATCH_SIZE w.notesInfoResult) 0
            (preBatchTrace w a)
        rw [htr, htl]
        rfl
  · intro h1 h2
    obtain ⟨htr, _, _⟩ := _main_eq_batches w a h1 h2
    exact ⟨_, htr⟩
  · intro hor
    have hsynccount : ∀ q : String,
        syncCount [Event.log .syncingAnki, Event.sync, Event.findNotes q,
          Event.log .noMatchingNotes] = 1 := by
      intro q
      simp [syncCount, List.countP_cons, Event.isSync]
    by_cases h1 : w.findNotesResult = []
    · rw [_main_eq_empty w a h1]
      exact hsynccount _
    · rcases hor with h | h2
      · exact absurd h h1
      · rw [_main_eq_noinfos w a h1 h2]
        show syncCount (preBatchTrace w a) = 1
        have hlim0 : List.countP Event.isSync (limitLogEvents a) = 0 :=
          countP_eq_zero_of_mem (fun e he => by
            obtain ⟨m, rfl⟩ := limitLogEvents_log a e he
            rfl)
        unfold preBatchTrace
        simp [syncCount, List.countP_append, hlim0, ankiSyncEvents,
          List.countP_cons, Event.isSync]

theorem claim_sync_bracketing_amended_witness :
    ((_main wExtractErr argsDefault).trace.take 3 =
      [.log .syncingAnki, .sync, .findNotes (builtQuery argsDefault)]) ∧
    (∃ pre, (_main wExtractErr argsDefault).trace =
      pre ++ ankiSyncEvents) ∧
    syncCount (_main wEmptySearch argsDefault).trace = 1 :=
  ⟨(claim_sync_bracketing_amended wExtractErr argsDefault).1,
    (claim_sync_bracketing_amended wExtractErr argsDefault).2.1
      (by decide) (by decide),
    (claim_sync_bracketing_amended wEmptySearch argsDefault).2.2
      (Or.inl rfl)⟩

/-- C4, counterexample to the claim as stated: an extraction failure in the
first batch aborts the run before that batch's bulk call, so a run that
fetched one note issues zero `multi` calls instead of `ceil(1/25) = 1`. -/
theorem claim_batch_exception_counterexample :
    intTruthy argsDefault.limit_count = false ∧
    wExtractErr.findNotesResult ≠ [] ∧
    wExtractErr.notesInfoResult.length = 1 ∧
    multiCount (_main wExtractErr argsDefault).trace = 0 ∧
    (wExtractErr.notesInfoResult.length + BATCH_SIZE - 1) / BATCH_SIZE =
      1 := by
  exact ⟨rfl, by decide, rfl, by decide, rfl⟩

/-- C4, amended: in a run with no truthy limit that fetches `N > 0` note
detail records and raises no exception, the notes are partitioned in
original order (concatenation restores the fetched list) into
`ceil(N/25)` batches of at most 25 notes each, and exactly one `multi`
bulk call is issued per batch — also for batches that stage zero
UpdateActions. -/
theorem claim_batch_count_amended (w : World) (a : Args)
    (hlim : intTruthy a.limit_count = false)
    (hfind : w.findNotesResult ≠ [])
    (hN : w.notesInfoResult ≠ [])
    (r : Option Int) (hok : (_main w a).ret = .ok r) :
    multiCount (_main w a).trace =
      (w.notesInfoResult.length + BATCH_SIZE - 1) / BATCH_SIZE ∧
    (batchedGo BATCH_SIZE w.notesInfoResult).flatten =
      w.notesInfoResult ∧
    (∀ b ∈ batchedGo BATCH_SIZE w.notesInfoResult,
      1 ≤ b.length ∧ b.length ≤ BATCH_SIZE) ∧
    (batchedGo BATCH_SIZE w.notesInfoResult).length =
      (w.notesInfoResult.length + BATCH_SIZE - 1) / BATCH_SIZE := by
  have hb1 : 1 ≤ BATCH_SIZE := by decide
  refine ⟨?_, batchedGo_join _ _,
    fun b hb => batchedGo_mem_length _ hb1 _ b hb,
    batchedGo_length _ hb1 _⟩
  obtain ⟨htr, _, hr⟩ := _main_eq_batches w a hfind hN
  cases hrb : runBatches w a (batchedGo BATCH_SIZE w.notesInfoResult) 0
      (preBatchTrace w a) with
  | raised p tr e =>
      rw [hrb] at hr
      rw [hr] at hok
      exact (Except.noConfusion hok)
  | done p tr =>
      rw [hrb] at htr
      rw [htr]
      obtain ⟨_, hm⟩ := runBatches_no_limit w a hlim
        (batchedGo BATCH_SIZE w.notesInfoResult) 0 (preBatchTrace w a)
        p tr hrb
      rw [show (OuterResult.done p tr).traceOf = tr from rfl]
      have hpre : multiCount (preBatchTrace w a) = 0 :=
        countP_eq_zero_of_mem
          (fun e he => (preBatchTrace_events w a e he).1)
      have hsync : multiCount ankiSyncEvents = 0 := rfl
      rw [multiCount, List.countP_append, ← multiCount, ← multiCount,
        hsync, hm, hpre, batchedGo_length _ hb1]
      omega

theorem claim_batch_count_amended_witness :
    multiCount (_main wManyNotes argsDefault).trace =
      (wManyNotes.notesInfoResult.length + BATCH_SIZE - 1) / BATCH_SIZE :=
  (claim_batch_count_amended wManyNotes argsDefault rfl (by decide)
    (by decide) none rfl).1

end AnkiSummarizeNotes
